import Mathlib

/-!
# Verification of the immich-tz-fixer correction-decision pipeline

Shallow embedding of `src/immich_tz_fixer.py`, covering the two core
functions `apply_interpolation` (anchor extraction + coordinate
interpolation) and `process_updates` (per-asset timezone decision and
batch classification).

Modelling conventions:
* capture times are absolute integers (`Int`); `parser.isoparse` is an
  abstract parameter `iso : String → Option Int` (`none` models a
  `ValueError`);
* geographic coordinates are `Int` (only presence, equality and
  pass-through matter to the pipeline; `float(...)` is the identity);
* the external collaborators of `process_updates` are gathered in an
  `Env`: `resolve` models `resolve_timezone` (`timezonefinder`),
  `gettz` models `dateutil.tz.gettz` being found, and `putOk`
  models success/failure of the per-asset `PUT /api/assets/id` call;
* a raw asset is the JSON object returned by the catalog; the fields
  `_dt`, `_interpolated`, `_new_lat`, `_new_lng`, `_method` that the
  Python code attaches to the dict are modelled as extra fields of
  `Asset` that default to the value `dict.get` would report for a
  missing key.
-/

namespace ImmichTzFixer

/-- A raw asset as fetched from the catalog: the fields of the JSON
object that the pipeline reads (`id`, `originalFileName`, and inside
`exifInfo`: `dateTimeOriginal`, `latitude`, `longitude`, `timeZone`).
`none` models an absent key or JSON `null`. -/
structure RawAsset where
  id : Nat
  originalFileName : String
  dateTimeOriginal : Option String
  latitude : Option Int
  longitude : Option Int
  timeZone : Option String
deriving DecidableEq, Repr, Inhabited

/-- An asset together with the derived fields the Python code attaches
directly onto the dict.  The defaults are exactly the defaults used by
the `dict.get` calls that read them back (`_interpolated` is read as
`asset.get("_interpolated", False)`, the others default to missing /
`None`). -/
structure Asset extends RawAsset where
  dt : Option Int := none
  interpolated : Bool := false
  newLat : Option Int := none
  newLng : Option Int := none
  methodTag : Option String := none
deriving DecidableEq, Repr, Inhabited

/-- View a freshly fetched asset as an `Asset` carrying no derived
fields (a JSON object from the catalog never has the underscore keys). -/
def RawAsset.toAsset (r : RawAsset) : Asset := { toRawAsset := r }

/-- A geodetic anchor, line 155: `{"time": asset["_dt"], "lat": float(lat), "lng": float(lng)}`. -/
structure Anchor where
  time : Int
  lat : Int
  lng : Int
deriving DecidableEq, Repr, Inhabited

/-- The `_dt` value of a valid asset (every asset inside
`apply_interpolation`'s `valid_assets` list has `_dt` set; the default
`0` is never exercised there). -/
def dtD (a : Asset) : Int := a.dt.getD 0

/-! ## `bisect_left`

Python's `bisect.bisect_left(a, x)` binary search.  The recursion of
the Python loop is on `hi - lo`; the embedding carries that quantity as
an explicit structural fuel so the function evaluates by kernel
reduction (the top-level call passes `a.length`, which always
dominates `hi - lo`). -/

/-- The loop of `bisect_left`: while `lo < hi`, probe `mid = (lo+hi)/2`
and shrink the interval.  `fuel` bounds `hi - lo`. -/
def bisectLeftGo (a : List Int) (x : Int) : Nat → Nat → Nat → Nat
  | 0, lo, _ => lo
  | fuel + 1, lo, hi =>
    if lo < hi then
      if a.getD ((lo + hi) / 2) 0 < x then bisectLeftGo a x fuel ((lo + hi) / 2 + 1) hi
      else bisectLeftGo a x fuel lo ((lo + hi) / 2)
    else lo

/-- `bisect.bisect_left(a, x)`: the leftmost insertion point for `x`
in the sorted list `a`. -/
def bisect_left (a : List Int) (x : Int) : Nat := bisectLeftGo a x a.length 0 a.length

/-! ## `apply_interpolation` (lines 133-207) -/

/-- Lines 134-144: keep only assets whose `exifInfo.dateTimeOriginal`
is truthy (present and non-empty) and parseable, attaching the parsed
datetime as `_dt`. -/
def validAssets (iso : String → Option Int) (assets : List RawAsset) : List Asset :=
  assets.filterMap fun r =>
    match r.dateTimeOriginal with
    | none => none
    | some s =>
      if s = "" then none
      else
        match iso s with
        | none => none
        | some d => some { r.toAsset with dt := some d }

/-- The sort key of line 147: `key=lambda x: x["_dt"]` (ascending). -/
def assetLE (a b : Asset) : Bool := decide (dtD a ≤ dtD b)

/-- Line 147: `valid_assets.sort(key=lambda x: x["_dt"])` — a stable
ascending sort by parsed capture time. -/
def sortValid (l : List Asset) : List Asset := l.mergeSort assetLE

/-- Lines 152-159: the anchor a valid asset contributes, if any — it
must carry both `latitude` and `longitude`. -/
def anchorOf (a : Asset) : Option Anchor :=
  match a.latitude, a.longitude with
  | some la, some ln => some ⟨dtD a, la, ln⟩
  | _, _ => none

/-- Lines 149-159: the anchor subsequence — every valid asset carrying
both `latitude` and `longitude`, in list order. -/
def extractAnchors (l : List Asset) : List Anchor :=
  l.filterMap anchorOf

/-- Lines 165-205: the per-asset annotation step of the interpolation
loop.  Assets that already have a `latitude` are left alone; otherwise
the `FF` / `NN` policies select an anchor by `bisect_left` over the
anchor times; an unrecognised method leaves the asset alone. -/
def annotate (method : String) (anchors : List Anchor) (a : Asset) : Asset :=
  if a.latitude.isSome then a
  else if method = "FF" then
    let idx := bisect_left (anchors.map Anchor.time) (dtD a)
    if idx > 0 then
      let anchor := anchors.getD (idx - 1) default
      { a with interpolated := true, newLat := some anchor.lat, newLng := some anchor.lng,
               methodTag := some "FF" }
    else a
  else if method = "NN" then
    let times := anchors.map Anchor.time
    let idx := bisect_left times (dtD a)
    let leftAnchor : Option Anchor := if idx > 0 then some (anchors.getD (idx - 1) default) else none
    let rightAnchor : Option Anchor := if idx < anchors.length then some (anchors.getD idx default) else none
    let chosen : Option Anchor :=
      match leftAnchor, rightAnchor with
      | some l, some r =>
        some (if (dtD a - l.time).natAbs ≤ (r.time - dtD a).natAbs then l else r)
      | some l, none => some l
      | none, some r => some r
      | none, none => none
    match chosen with
    | some c =>
      { a with interpolated := true, newLat := some c.lat, newLng := some c.lng,
               methodTag := some "NN" }
    | none => a
  else a

/-- `apply_interpolation(assets, method)`: filter to parseable assets,
sort by time, extract anchors, and (unless there are no anchors at
all, line 161) annotate every coordinate-less asset. -/
def apply_interpolation (iso : String → Option Int) (assets : List RawAsset)
    (method : String) : List Asset :=
  let valid := sortValid (validAssets iso assets)
  let anchors := extractAnchors valid
  if anchors = [] then valid
  else valid.map (annotate method anchors)

/-! ## `process_updates` (lines 209-326) -/

/-- The external collaborators consumed by `process_updates`. -/
structure Env where
  isoparse : String → Option Int
  resolve : Int → Int → Option String
  gettz : String → Bool
  putOk : Nat → Bool

/-- The four outcome classifications. -/
inductive Outcome where
  | updated
  | alreadyCorrect
  | skipped
  | errors
deriving DecidableEq, Repr

/-- The `stats` dictionary of line 215. -/
structure Stats where
  updated : Nat
  alreadyCorrect : Nat
  skipped : Nat
  errors : Nat
  total : Nat
deriving DecidableEq, Repr

/-- Line 261: `lat = asset.get("_new_lat", exif.get("latitude"))`. -/
def effLat (a : Asset) : Option Int :=
  match a.newLat with
  | some v => some v
  | none => a.latitude

/-- Line 262: `lng = asset.get("_new_lng", exif.get("longitude"))`. -/
def effLng (a : Asset) : Option Int :=
  match a.newLng with
  | some v => some v
  | none => a.longitude

/-- The per-asset body of the loop of lines 250-323, as a pure
decision: the outcome recorded for the asset, paired with whether the
catalog's mutation endpoint (`PUT /api/assets/id`) was contacted.
Mirrors the source order: missing/empty timestamp → Skipped; missing
coordinate → Skipped; falsy timezone resolution → Errors; `isoparse` or
`gettz` failure → Errors; identifier equality → Already correct;
dry-run → Updated without contact; live → contact once, Updated on
success, Errors on failure. -/
def classify (env : Env) (dryRun : Bool) (a : Asset) : Outcome × Bool :=
  match a.dateTimeOriginal with
  | none => (.skipped, false)
  | some s =>
    if s = "" then (.skipped, false)
    else
      match effLat a, effLng a with
      | some la, some ln =>
        match env.resolve la ln with
        | none => (.errors, false)
        | some tz =>
          if tz = "" then (.errors, false)
          else
            match env.isoparse s with
            | none => (.errors, false)
            | some _ =>
              if env.gettz tz = false then (.errors, false)
              else if a.timeZone = some tz then (.alreadyCorrect, false)
              else if dryRun then (.updated, false)
              else if env.putOk a.id then (.updated, true)
              else (.errors, true)
      | _, _ => (.skipped, false)

/-- Increment the counter named by an outcome. -/
def bump (st : Stats) (o : Outcome) : Stats :=
  match o with
  | .updated => { st with updated := st.updated + 1 }
  | .alreadyCorrect => { st with alreadyCorrect := st.alreadyCorrect + 1 }
  | .skipped => { st with skipped := st.skipped + 1 }
  | .errors => { st with errors := st.errors + 1 }

/-- Line 215: `stats = dict(Updated=0, Already-correct=0, Skipped=0, Errors=0, Total=len(assets))`. -/
def initStats (n : Nat) : Stats := ⟨0, 0, 0, 0, n⟩

/-- One iteration of the loop: classify the asset, bump the matching
counter, and append the asset id to the trace of mutation requests if
the endpoint was contacted. -/
def stepFn (env : Env) (dryRun : Bool) (acc : Stats × List Nat) (a : Asset) : Stats × List Nat :=
  let r := classify env dryRun a
  (bump acc.1 r.1, if r.2 then acc.2 ++ [a.id] else acc.2)

/-- `process_updates(assets, fix, dry_run, console)`: the final stats
together with the ordered list of asset ids for which the catalog's
mutation endpoint was contacted.  The `fix` parameter is accepted but —
exactly as in the source — never consulted: only `dry_run` selects the
branch at line 303. -/
def process_updates (env : Env) (assets : List Asset) (fix dryRun : Bool) : Stats × List Nat :=
  assets.foldl (stepFn env dryRun) (initStats assets.length, [])

/-- The guard cascade of `process_updates` preceding the timezone
comparison, collapsed to the resolved target timezone: `some tz` iff
the asset reaches line 297 (`if current_tz_val == target_tz`), i.e. it
has a truthy timestamp, effective coordinates, a truthy resolved
timezone `tz`, a parseable timestamp and a known `gettz` zone. -/
def guardsOk (env : Env) (a : Asset) : Option String :=
  match a.dateTimeOriginal with
  | none => none
  | some s =>
    if s = "" then none
    else
      match effLat a, effLng a with
      | some la, some ln =>
        match env.resolve la ln with
        | none => none
        | some tz =>
          if tz = "" then none
          else
            match env.isoparse s with
            | none => none
            | some _ => if env.gettz tz = false then none else some tz
      | _, _ => none

/-- The anchor sequence a batch produces: extracted once from the
time-sorted valid assets (lines 146-159). -/
def pipelineAnchors (iso : String → Option Int) (assets : List RawAsset) : List Anchor :=
  extractAnchors (sortValid (validAssets iso assets))

/-! ## Spec-side selection rules (refinement targets)

The next three definitions follow the wording of §4.2 of the spec, not
the code; the conformance theorems below compare the code's
`bisect_left`-based selection against them. -/

/-- Spec §4.2: insertion index `i` — the leftmost position in the
anchor-time sequence such that `anchor[i].time >= asset.time` (the
length of the sequence when there is none). -/
def specLeftmostGE (anchors : List Anchor) (t : Int) : Nat :=
  anchors.findIdx fun anc => decide (t ≤ anc.time)

/-- Spec §4.2, `NN` policy: candidates are the predecessor
`anchor[i-1]` and the successor `anchor[i]` (when in range); if both
exist choose the one with smaller absolute time difference to the
asset, choosing the predecessor on an exact tie; if only one exists
use it; if neither exists, no inference. -/
def nnSpecChoice (anchors : List Anchor) (t : Int) : Option Anchor :=
  let i := specLeftmostGE anchors t
  let pred : Option Anchor := if i > 0 then anchors[i - 1]? else none
  let succ : Option Anchor := anchors[i]?
  match pred, succ with
  | some p, some s =>
    if (p.time - t).natAbs < (s.time - t).natAbs then some p
    else if (p.time - t).natAbs = (s.time - t).natAbs then some p
    else some s
  | some p, none => some p
  | none, some s => some s
  | none, none => none

/-- Spec §4.2, `FF` policy: the candidate is `anchor[i-1]`; if no such
anchor exists (`i = 0`), no inference. -/
def ffSpecChoice (anchors : List Anchor) (t : Int) : Option Anchor :=
  let i := specLeftmostGE anchors t
  if i > 0 then anchors[i - 1]? else none

/-! ## Concrete test data (used by witnesses and counterexamples) -/

/-- An anchor-bearing raw asset at time 100. -/
def rawAnchor1 : RawAsset := ⟨1, "a1.jpg", some "t100", some 10, some 20, some "Asia/Tokyo"⟩

/-- A coordinate-less raw asset at time 200 — exactly equidistant from
the two anchors at times 100 and 300. -/
def rawMid : RawAsset := ⟨2, "mid.jpg", some "t200", none, none, some "UTC"⟩

/-- An anchor-bearing raw asset at time 300. -/
def rawAnchor2 : RawAsset := ⟨3, "a2.jpg", some "t300", some 30, some 40, none⟩

/-- A raw asset whose timestamp string does not parse. -/
def rawBad : RawAsset := ⟨4, "bad.jpg", some "nonsense", none, none, none⟩

/-- A raw asset with no capture timestamp at all. -/
def rawNoTs : RawAsset := ⟨5, "nots.jpg", none, some 50, some 60, none⟩

/-- A small batch: two anchors, a coordinate-less asset between them,
and an unparseable asset. -/
def rawsTest : List RawAsset := [rawAnchor1, rawMid, rawAnchor2, rawBad]

/-- A concrete stand-in for `parser.isoparse`. -/
def isoTest : String → Option Int := fun s =>
  if s = "t100" then some 100
  else if s = "t200" then some 200
  else if s = "t300" then some 300
  else none

/-- A concrete stand-in for `resolve_timezone`. -/
def resTest : Int → Int → Option String :=
  fun la _ => if la = 10 then some "Asia/Tokyo" else some "Europe/Paris"

/-- A concrete `gettz` that knows every zone. -/
def gtzTest : String → Bool := fun _ => true

/-- A mutation endpoint that always succeeds. -/
def putAlways : Nat → Bool := fun _ => true

/-- A mutation endpoint that always fails. -/
def putNever : Nat → Bool := fun _ => false

/-- A concrete environment: every lookup succeeds and every update
call succeeds. -/
def envTest : Env := ⟨isoTest, resTest, gtzTest, putAlways⟩

/-- `envTest` with a failing mutation endpoint. -/
def envFail : Env := ⟨isoTest, resTest, gtzTest, putNever⟩

/-- `rawAnchor1` as it appears among the valid assets. -/
def a1V : Asset := { rawAnchor1.toAsset with dt := some 100 }

/-- `rawMid` as it appears among the valid assets. -/
def midV : Asset := { rawMid.toAsset with dt := some 200 }

/-- `rawAnchor2` as it appears among the valid assets. -/
def a2V : Asset := { rawAnchor2.toAsset with dt := some 300 }

/-- `rawMid` after `NN` annotation: the tie at distance 100 resolves to
the predecessor anchor at time 100. -/
def aMidNN : Asset :=
  { rawMid.toAsset with
    dt := some 200
    interpolated := true
    newLat := some 10
    newLng := some 20
    methodTag := some "NN" }

/-- `rawMid` after `FF` annotation: the anchor at time 100. -/
def aMidFF : Asset :=
  { rawMid.toAsset with
    dt := some 200
    interpolated := true
    newLat := some 10
    newLng := some 20
    methodTag := some "FF" }

/-- An asset with a pending mutation under `envTest`: resolvable
coordinates, parseable timestamp, stored zone differing from the
resolved one. -/
def aPend : Asset :=
  { id := 7, originalFileName := "p.jpg", dateTimeOriginal := some "t100",
    latitude := some 10, longitude := some 20, timeZone := some "UTC" }

/-! ## Correctness of `bisect_left` on sorted lists -/

/-- The binary-search loop returns any index `c` that separates the
elements `< x` from the rest, provided the search interval brackets `c`
and the fuel dominates the interval width. -/
theorem bisectLeftGo_eq (a : List Int) (x : Int) (c : Nat)
    (hc : ∀ i, i < a.length → (i < c ↔ a.getD i 0 < x)) :
    ∀ fuel lo hi, hi - lo ≤ fuel → lo ≤ c → c ≤ hi → hi ≤ a.length →
      bisectLeftGo a x fuel lo hi = c := by
  intro fuel
  induction fuel with
  | zero =>
    intro lo hi hfuel hlo hhi hha
    simp only [bisectLeftGo]
    omega
  | succ n ih =>
    intro lo hi hfuel hlo hhi hha
    rw [bisectLeftGo]
    by_cases h : lo < hi
    · rw [if_pos h]
      by_cases hm : a.getD ((lo + hi) / 2) 0 < x
      · rw [if_pos hm]
        have hmlen : (lo + hi) / 2 < a.length := by omega
        have hmidc : (lo + hi) / 2 < c := (hc _ hmlen).mpr hm
        exact ih _ hi (by omega) (by omega) hhi hha
      · rw [if_neg hm]
        have hmidc : c ≤ (lo + hi) / 2 := by
          by_contra hcon
          push_neg at hcon
          have hmlen : (lo + hi) / 2 < a.length := by omega
          exact hm ((hc _ hmlen).mp hcon)
        exact ih lo _ (by omega) hlo hmidc (by omega)
    · rw [if_neg h]
      omega

/-- On a non-decreasing list, the leftmost index holding an element
`≥ x` (computed by `findIdx`) separates the elements `< x` from the
rest: an index is to its left exactly when its element is `< x`. -/
theorem sorted_findIdx_char (l : List Int) (x : Int)
    (hs : l.Pairwise (· ≤ ·)) (i : Nat) (h : i < l.length) :
    i < l.findIdx (fun y => decide (x ≤ y)) ↔ l.getD i 0 < x := by
  have hgd : l.getD i 0 = l[i] := by
    simp [List.getD_eq_getElem?_getD, List.getElem?_eq_getElem h]
  rw [hgd]
  constructor
  · intro hi
    have hnp := List.not_of_lt_findIdx (p := fun y => decide (x ≤ y)) hi
    simp only [decide_eq_false_iff_not, not_le] at hnp
    exact hnp
  · intro hlt
    by_contra hcon
    push_neg at hcon
    have hflen : l.findIdx (fun y => decide (x ≤ y)) < l.length := by omega
    have hp := List.findIdx_getElem (p := fun y => decide (x ≤ y)) (w := hflen)
    simp only [decide_eq_true_eq] at hp
    have hle : l[l.findIdx fun y => decide (x ≤ y)] ≤ l[i] := by
      rcases Nat.eq_or_lt_of_le hcon with heq | hlt2
      · exact le_of_eq (by congr 1)
      · exact List.pairwise_iff_getElem.mp hs _ _ hflen h hlt2
    omega

/-- On a non-decreasing list, `bisect_left` computes the leftmost
insertion point: the index of the first element `≥ x` (the length of
the list when there is none). -/
theorem bisect_left_sorted (l : List Int) (x : Int) (hs : l.Pairwise (· ≤ ·)) :
    bisect_left l x = l.findIdx (fun y => decide (x ≤ y)) := by
  exact bisectLeftGo_eq l x _ (fun i hi => sorted_findIdx_char l x hs i hi)
    l.length 0 l.length (by omega) (Nat.zero_le _)
    (List.findIdx_le_length _) (Nat.le_refl _)

/-! ## Structure of the valid-asset and anchor sequences -/

theorem assetLE_trans (a b c : Asset) : assetLE a b → assetLE b c → assetLE a c := by
  simp only [assetLE, decide_eq_true_eq]
  omega

theorem assetLE_total (a b : Asset) : assetLE a b || assetLE b a := by
  simp only [assetLE, Bool.or_eq_true, decide_eq_true_eq]
  omega

/-- The time-sorted valid sequence is pairwise non-decreasing in `_dt`. -/
theorem sortValid_sorted (l : List Asset) :
    (sortValid l).Pairwise (fun a b => assetLE a b = true) :=
  List.sorted_mergeSort assetLE_trans assetLE_total l

/-- Membership characterization of `anchorOf`. -/
theorem anchorOf_eq_some {a : Asset} {anc : Anchor} :
    anchorOf a = some anc ↔
      ∃ la ln, a.latitude = some la ∧ a.longitude = some ln ∧ anc = ⟨dtD a, la, ln⟩ := by
  unfold anchorOf
  rcases hla : a.latitude with _ | la <;> rcases hln : a.longitude with _ | ln <;>
    simp [hla, hln, eq_comm]

/-- Anchor times inherit the sortedness of the asset sequence they are
extracted from. -/
theorem extractAnchors_sorted (l : List Asset)
    (hl : l.Pairwise (fun a b => assetLE a b = true)) :
    ((extractAnchors l).map Anchor.time).Pairwise (· ≤ ·) := by
  rw [List.pairwise_map]
  apply List.Pairwise.filterMap anchorOf ?H hl
  intro a b hab x hx y hy
  rcases anchorOf_eq_some.mp hx with ⟨la, ln, _, _, hxeq⟩
  rcases anchorOf_eq_some.mp hy with ⟨lb, lnb, _, _, hyeq⟩
  subst hxeq hyeq
  simpa [assetLE] using hab

/-- `annotate` never changes the raw fields nor the parsed `_dt`: it
only sets the derived annotation fields. -/
theorem annotate_preserves (m : String) (anchors : List Anchor) (a : Asset) :
    (annotate m anchors a).toRawAsset = a.toRawAsset ∧ (annotate m anchors a).dt = a.dt := by
  simp only [annotate]
  repeat' split
  all_goals exact ⟨rfl, rfl⟩

/-- Membership characterization of `validAssets`: the retained assets
are exactly the raw assets with a truthy, parseable timestamp, carrying
the parsed time as `_dt` and no other derived field. -/
theorem mem_validAssets {iso : String → Option Int} {assets : List RawAsset} {a : Asset} :
    a ∈ validAssets iso assets ↔
      ∃ r ∈ assets, ∃ s d, r.dateTimeOriginal = some s ∧ s ≠ "" ∧ iso s = some d ∧
        a = { r.toAsset with dt := some d } := by
  unfold validAssets
  rw [List.mem_filterMap]
  constructor
  · rintro ⟨r, hr, hf⟩
    refine ⟨r, hr, ?_⟩
    rcases hdt : r.dateTimeOriginal with _ | s
    · simp [hdt] at hf
    · by_cases hs : s = ""
      · simp [hdt, hs] at hf
      · rcases hiso : iso s with _ | d
        · simp [hdt, hs, hiso] at hf
        · simp only [hdt, hs, hiso, if_neg, Option.some.injEq] at hf
          refine ⟨s, d, rfl, hs, hiso, ?_⟩
          simp at hf
          exact hf.symm
  · rintro ⟨r, hr, s, d, hdt, hs, hiso, ha⟩
    exact ⟨r, hr, by simp [hdt, hs, hiso, ha]⟩

/-- The elements of the interpolation output are the time-sorted valid
assets, each processed by `annotate` (or untouched when there are no
anchors). -/
theorem mem_apply_interpolation {iso : String → Option Int} {assets : List RawAsset}
    {method : String} {a : Asset} (ha : a ∈ apply_interpolation iso assets method) :
    ∃ b ∈ sortValid (validAssets iso assets),
      a = annotate method (extractAnchors (sortValid (validAssets iso assets))) b ∨
        (extractAnchors (sortValid (validAssets iso assets)) = [] ∧ a = b) := by
  unfold apply_interpolation at ha
  by_cases h : extractAnchors (sortValid (validAssets iso assets)) = []
  · rw [if_pos h] at ha
    exact ⟨a, ha, Or.inr ⟨h, rfl⟩⟩
  · rw [if_neg h] at ha
    rcases List.mem_map.mp ha with ⟨b, hb, hab⟩
    exact ⟨b, hb, Or.inl hab.symm⟩

/-! ## Conformance of `annotate` to the spec-side selection rules -/

/-- `findIdx` over the projected time list agrees with `findIdx` over
the anchors. -/
theorem findIdx_map_time (anchors : List Anchor) (t : Int) :
    (anchors.map Anchor.time).findIdx (fun y => decide (t ≤ y))
      = anchors.findIdx (fun anc => decide (t ≤ anc.time)) := by
  induction anchors with
  | nil => rfl
  | cons a l ih => simp [List.findIdx_cons, ih]

/-- On non-decreasing anchor times, the code's `bisect_left` insertion
index is the spec's leftmost index with time `≥ t`. -/
theorem bisect_left_eq_specLeftmostGE (anchors : List Anchor) (t : Int)
    (hs : (anchors.map Anchor.time).Pairwise (· ≤ ·)) :
    bisect_left (anchors.map Anchor.time) t = specLeftmostGE anchors t := by
  rw [bisect_left_sorted _ _ hs, findIdx_map_time, specLeftmostGE]

theorem specLeftmostGE_le_length (anchors : List Anchor) (t : Int) :
    specLeftmostGE anchors t ≤ anchors.length :=
  List.findIdx_le_length _

/-- Index characterization of the spec's leftmost index on sorted
anchors: the indices before it hold times `< t`, the others times `≥ t`. -/
theorem specLeftmostGE_char (anchors : List Anchor) (t : Int)
    (hs : (anchors.map Anchor.time).Pairwise (· ≤ ·)) (j : Nat) (hj : j < anchors.length) :
    j < specLeftmostGE anchors t ↔ (anchors.getD j default).time < t := by
  have h := sorted_findIdx_char (anchors.map Anchor.time) t hs j (by simpa using hj)
  rw [findIdx_map_time] at h
  rw [specLeftmostGE]
  rw [List.getD_eq_getElem _ _ (by simpa using hj), List.getElem_map] at h
  rw [List.getD_eq_getElem _ _ hj]
  exact h

/-- In-range indexing: `getElem?` agrees with the `getD` form used by
the code. -/
theorem getElemOpt_eq_getD (anchors : List Anchor) (j : Nat) (hj : j < anchors.length) :
    anchors[j]? = some (anchors.getD j default) := by
  rw [List.getElem?_eq_getElem hj, List.getD_eq_getElem _ _ hj]

/-- An asset that already has a latitude is returned untouched. -/
theorem annotate_of_latitude {m : String} {anchors : List Anchor} {a : Asset}
    (h : a.latitude.isSome = true) : annotate m anchors a = a := by
  unfold annotate
  rw [if_pos h]

/-- The code's `FF` branch computes exactly the spec's `FF` selection
on sorted anchors. -/
theorem annotate_ff (anchors : List Anchor)
    (hs : (anchors.map Anchor.time).Pairwise (· ≤ ·)) (b : Asset) (hb : b.latitude = none) :
    annotate "FF" anchors b =
      match ffSpecChoice anchors (dtD b) with
      | some c =>
        { b with interpolated := true, newLat := some c.lat, newLng := some c.lng,
                 methodTag := some "FF" }
      | none => b := by
  have hbl : ¬ (b.latitude.isSome = true) := by rw [hb]; simp
  have hL := bisect_left_eq_specLeftmostGE anchors (dtD b) hs
  have hlen := specLeftmostGE_le_length anchors (dtD b)
  unfold annotate ffSpecChoice
  rw [if_neg hbl, if_pos rfl, hL]
  rcases Nat.eq_zero_or_pos (specLeftmostGE anchors (dtD b)) with hi0 | hip
  · rw [hi0]
    norm_num
  · rw [if_pos hip, if_pos hip,
      getElemOpt_eq_getD anchors _ (by omega)]

/-- The code's `NN` branch computes exactly the spec's `NN` selection
on sorted anchors (including the tie rule: the code's `<=` keeps the
predecessor on an exact tie). -/
theorem annotate_nn (anchors : List Anchor)
    (hs : (anchors.map Anchor.time).Pairwise (· ≤ ·)) (b : Asset) (hb : b.latitude = none) :
    annotate "NN" anchors b =
      match nnSpecChoice anchors (dtD b) with
      | some c =>
        { b with interpolated := true, newLat := some c.lat, newLng := some c.lng,
                 methodTag := some "NN" }
      | none => b := by
  have hbl : ¬ (b.latitude.isSome = true) := by rw [hb]; simp
  have hL := bisect_left_eq_specLeftmostGE anchors (dtD b) hs
  have hlen := specLeftmostGE_le_length anchors (dtD b)
  unfold annotate nnSpecChoice
  rw [if_neg hbl, if_neg (by decide : ¬ ("NN" = "FF")), if_pos rfl]
  dsimp only
  rw [hL]
  rcases Nat.eq_zero_or_pos (specLeftmostGE anchors (dtD b)) with hi0 | hip
  · rw [hi0]
    by_cases h0 : 0 < anchors.length
    · rw [getElemOpt_eq_getD anchors 0 h0, if_pos h0]
      norm_num
    · rw [List.getElem?_eq_none (by omega), if_neg h0]
      norm_num
  · have hi1 : specLeftmostGE anchors (dtD b) - 1 < anchors.length := by omega
    rw [if_pos hip, if_pos hip, getElemOpt_eq_getD anchors _ hi1]
    have hcomm : ∀ p : Anchor, (dtD b - p.time).natAbs = (p.time - dtD b).natAbs :=
      fun p => by omega
    by_cases hilen : specLeftmostGE anchors (dtD b) < anchors.length
    · rw [if_pos hilen, getElemOpt_eq_getD anchors _ hilen]
      dsimp only
      rw [hcomm]
      split_ifs <;> first | rfl | omega
    · rw [if_neg hilen, List.getElem?_eq_none (by omega)]

/-- A valid asset carries no annotation fields: they are exactly the
`dict.get` defaults, since `apply_interpolation` receives freshly
fetched JSON objects. -/
theorem validAssets_clean {iso : String → Option Int} {assets : List RawAsset} {b : Asset}
    (hb : b ∈ validAssets iso assets) :
    b.interpolated = false ∧ b.newLat = none ∧ b.newLng = none ∧ b.methodTag = none := by
  rcases mem_validAssets.mp hb with ⟨r, _, s, d, _, _, _, hbe⟩
  subst hbe
  exact ⟨rfl, rfl, rfl, rfl⟩

/-- Sorting does not change membership. -/
theorem mem_sortValid {l : List Asset} {a : Asset} (h : a ∈ sortValid l) : a ∈ l := by
  unfold sortValid at h
  exact List.mem_mergeSort.mp h

/-- The batch's anchor sequence has non-decreasing times. -/
theorem pipelineAnchors_sorted (iso : String → Option Int) (assets : List RawAsset) :
    ((pipelineAnchors iso assets).map Anchor.time).Pairwise (· ≤ ·) :=
  extractAnchors_sorted _ (sortValid_sorted _)

/-- What the spec's `FF` selection delivers on sorted anchors: a chosen
anchor is a batch anchor strictly in the past and is the latest such;
when nothing is chosen, no anchor lies strictly in the past — and that
happens exactly when the leftmost index is `0`. -/
theorem ffSpecChoice_spec (anchors : List Anchor) (t : Int)
    (hs : (anchors.map Anchor.time).Pairwise (· ≤ ·)) :
    (∀ c, ffSpecChoice anchors t = some c →
      c ∈ anchors ∧ c.time < t ∧ ∀ b ∈ anchors, b.time < t → b.time ≤ c.time) ∧
    (ffSpecChoice anchors t = none ↔ specLeftmostGE anchors t = 0) ∧
    (ffSpecChoice anchors t = none → ∀ b ∈ anchors, ¬ b.time < t) := by
  have hlen := specLeftmostGE_le_length anchors t
  have hchar := specLeftmostGE_char anchors t hs
  have hnone : ffSpecChoice anchors t = none ↔ specLeftmostGE anchors t = 0 := by
    unfold ffSpecChoice
    dsimp only
    rcases Nat.eq_zero_or_pos (specLeftmostGE anchors t) with hi0 | hip
    · rw [hi0]
      simp
    · rw [if_pos hip, getElemOpt_eq_getD anchors _ (by omega)]
      simp
      omega
  refine ⟨?_, hnone, ?_⟩
  · intro c hc
    have hip : 0 < specLeftmostGE anchors t := by
      by_contra h0
      rw [(hnone.mpr (by omega))] at hc
      exact Option.noConfusion hc
    have hi1 : specLeftmostGE anchors t - 1 < anchors.length := by omega
    have hcval : c = anchors.getD (specLeftmostGE anchors t - 1) default := by
      unfold ffSpecChoice at hc
      rw [if_pos hip, getElemOpt_eq_getD anchors _ hi1] at hc
      exact (Option.some.injEq _ _ ▸ hc).symm
    subst hcval
    refine ⟨?_, ?_, ?_⟩
    · rw [List.getD_eq_getElem _ _ hi1]
      exact List.getElem_mem hi1
    · exact (hchar _ hi1).mp (by omega)
    · intro b hbmem hbt
      rcases List.getElem_of_mem hbmem with ⟨j, hj, hbj⟩
      have hjD : anchors.getD j default = b := by
        rw [List.getD_eq_getElem _ _ hj, hbj]
      have hji : j < specLeftmostGE anchors t := (hchar j hj).mpr (by rw [hjD]; exact hbt)
      rcases Nat.lt_or_ge j (specLeftmostGE anchors t - 1) with hj1 | hj1
      · have := List.pairwise_iff_getElem.mp hs j (specLeftmostGE anchors t - 1)
          (by simpa using hj) (by simpa using hi1) hj1
        simp only [List.getElem_map] at this
        rw [← hbj, List.getD_eq_getElem _ _ hi1]
        exact this
      · have hjeq : j = specLeftmostGE anchors t - 1 := by omega
        subst hjeq
        rw [← hbj, List.getD_eq_getElem _ _ hj]
  · intro hc b hbmem hbt
    have hi0 := hnone.mp hc
    rcases List.getElem_of_mem hbmem with ⟨j, hj, hbj⟩
    have : j < specLeftmostGE anchors t :=
      (hchar j hj).mpr (by rw [List.getD_eq_getElem _ _ hj, hbj]; exact hbt)
    omega

/-- C3: under the `NN` policy, every output asset lacking native
coordinates carries exactly the annotation dictated by the spec's
nearest-neighbour rule (`nnSpecChoice`, stated over the leftmost index
`i` with `anchor[i].time ≥ asset.time`): the anchor among predecessor
`anchor[i-1]` and successor `anchor[i]` with the smaller absolute time
difference, the predecessor on an exact tie, the sole existing
neighbour when only one exists, and no inference when neither does. -/
theorem nn_conforms (iso : String → Option Int) (assets : List RawAsset) (a : Asset)
    (ha : a ∈ apply_interpolation iso assets "NN") (hlat : a.latitude = none) :
    a.interpolated = (nnSpecChoice (pipelineAnchors iso assets) (dtD a)).isSome ∧
    a.newLat = (nnSpecChoice (pipelineAnchors iso assets) (dtD a)).map Anchor.lat ∧
    a.newLng = (nnSpecChoice (pipelineAnchors iso assets) (dtD a)).map Anchor.lng ∧
    a.methodTag = (if (nnSpecChoice (pipelineAnchors iso assets) (dtD a)).isSome
      then some "NN" else none) := by
  obtain ⟨b, hb, hcase⟩ := mem_apply_interpolation ha
  obtain ⟨hbitp, hbnla, hbnlb, hbmtg⟩ := validAssets_clean (mem_sortValid hb)
  rcases hcase with hann | ⟨hanc, rfl⟩
  · have hsorted := pipelineAnchors_sorted iso assets
    have hblat : b.latitude = none := by
      have h1 := (annotate_preserves "NN" (pipelineAnchors iso assets) b).1
      rw [hann] at hlat
      rw [← congrArg RawAsset.latitude h1]
      exact hlat
    have hann2 : a = annotate "NN" (pipelineAnchors iso assets) b := hann
    subst hann2
    have hdt : dtD (annotate "NN" (pipelineAnchors iso assets) b) = dtD b := by
      unfold dtD
      rw [(annotate_preserves _ _ _).2]
    rw [hdt, annotate_nn _ hsorted b hblat]
    rcases hnn : nnSpecChoice (pipelineAnchors iso assets) (dtD b) with _ | c
    · simpa [hnn] using ⟨hbitp, hbnla, hbnlb, hbmtg⟩
    · simp [hnn]
  · unfold pipelineAnchors
    rw [hanc]
    have hchoice : nnSpecChoice [] (dtD a) = none := rfl
    rw [hchoice]
    simpa using ⟨hbitp, hbnla, hbnlb, hbmtg⟩

/-- C4: under the `FF` policy, every output asset lacking native
coordinates is annotated exactly with the spec's `FF` candidate
`anchor[i-1]`; a chosen anchor's time is strictly less than the
asset's time and is the greatest such among the batch anchors, and
when no anchor precedes the asset's time (the leftmost index is `0` —
equivalently the choice is empty) no inference is produced. -/
theorem ff_conforms (iso : String → Option Int) (assets : List RawAsset) (a : Asset)
    (ha : a ∈ apply_interpolation iso assets "FF") (hlat : a.latitude = none) :
    a.interpolated = (ffSpecChoice (pipelineAnchors iso assets) (dtD a)).isSome ∧
    a.newLat = (ffSpecChoice (pipelineAnchors iso assets) (dtD a)).map Anchor.lat ∧
    a.newLng = (ffSpecChoice (pipelineAnchors iso assets) (dtD a)).map Anchor.lng ∧
    a.methodTag = (if (ffSpecChoice (pipelineAnchors iso assets) (dtD a)).isSome
      then some "FF" else none) ∧
    (ffSpecChoice (pipelineAnchors iso assets) (dtD a) = none ↔
      specLeftmostGE (pipelineAnchors iso assets) (dtD a) = 0) ∧
    (ffSpecChoice (pipelineAnchors iso assets) (dtD a)).elim
      (((pipelineAnchors iso assets).all fun c => decide (¬ c.time < dtD a)) = true)
      (fun c => c.time < dtD a ∧
        ((pipelineAnchors iso assets).all fun b =>
          decide (b.time < dtD a → b.time ≤ c.time)) = true) := by
  obtain ⟨b, hb, hcase⟩ := mem_apply_interpolation ha
  obtain ⟨hbitp, hbnla, hbnlb, hbmtg⟩ := validAssets_clean (mem_sortValid hb)
  have hsorted := pipelineAnchors_sorted iso assets
  have hspec := ffSpecChoice_spec (pipelineAnchors iso assets) (dtD b) hsorted
  have helim : (ffSpecChoice (pipelineAnchors iso assets) (dtD b)).elim
      (((pipelineAnchors iso assets).all fun c => decide (¬ c.time < dtD b)) = true)
      (fun c => c.time < dtD b ∧
        ((pipelineAnchors iso assets).all fun b' =>
          decide (b'.time < dtD b → b'.time ≤ c.time)) = true) := by
    rcases hff : ffSpecChoice (pipelineAnchors iso assets) (dtD b) with _ | c
    · simp only [Option.elim, List.all_eq_true, decide_eq_true_eq]
      exact fun x hx => hspec.2.2 hff x hx
    · obtain ⟨_, hct, hmax⟩ := hspec.1 c hff
      simp only [Option.elim, List.all_eq_true, decide_eq_true_eq]
      exact ⟨hct, fun x hx hxt => hmax x hx hxt⟩
  rcases hcase with hann | ⟨hanc, rfl⟩
  · have hblat : b.latitude = none := by
      have h1 := (annotate_preserves "FF" (pipelineAnchors iso assets) b).1
      rw [hann] at hlat
      rw [← congrArg RawAsset.latitude h1]
      exact hlat
    have hann2 : a = annotate "FF" (pipelineAnchors iso assets) b := hann
    subst hann2
    have hdt : dtD (annotate "FF" (pipelineAnchors iso assets) b) = dtD b := by
      unfold dtD
      rw [(annotate_preserves _ _ _).2]
    rw [hdt, annotate_ff _ hsorted b hblat]
    refine ⟨?_, ?_, ?_, ?_, hspec.2.1, helim⟩ <;>
      rcases hff : ffSpecChoice (pipelineAnchors iso assets) (dtD b) with _ | c <;>
      simp [hff, hbitp, hbnla, hbnlb, hbmtg]
  · have hP : pipelineAnchors iso assets = [] := hanc
    rw [hP]
    have hchoice : ffSpecChoice [] (dtD a) = none := rfl
    rw [hchoice]
    simp only [Option.isSome_none, Option.map_none, if_neg (by simp : ¬ (false = true)),
      Option.elim]
    refine ⟨hbitp, hbnla, hbnlb, hbmtg, ?_, by simp⟩
    constructor
    · intro _
      rfl
    · intro _
      trivial

/-- C6: an asset carrying native coordinates is never annotated by the
Interpolation Engine — no inferred coordinates and no method tag,
whatever the policy. -/
theorem native_coords_untouched (iso : String → Option Int) (assets : List RawAsset)
    (method : String) (a : Asset) (ha : a ∈ apply_interpolation iso assets method)
    (hlat : a.latitude.isSome = true) (hlng : a.longitude.isSome = true) :
    a.interpolated = false ∧ a.newLat = none ∧ a.newLng = none ∧ a.methodTag = none := by
  obtain ⟨b, hb, hcase⟩ := mem_apply_interpolation ha
  obtain ⟨hbitp, hbnla, hbnlb, hbmtg⟩ := validAssets_clean (mem_sortValid hb)
  rcases hcase with hann | ⟨_, rfl⟩
  · have hblat : b.latitude.isSome = true := by
      have h1 := (annotate_preserves method (extractAnchors (sortValid (validAssets iso assets))) b).1
      rw [hann] at hlat
      rw [← congrArg RawAsset.latitude h1]
      exact hlat
    rw [hann, annotate_of_latitude hblat]
    exact ⟨hbitp, hbnla, hbnlb, hbmtg⟩
  · exact ⟨hbitp, hbnla, hbnlb, hbmtg⟩

/-- Annotation does not change what anchor an asset would contribute:
it touches none of the fields `anchorOf` reads. -/
theorem anchorOf_annotate (m : String) (anc : List Anchor) (b : Asset) :
    anchorOf (annotate m anc b) = anchorOf b := by
  obtain ⟨h1, h2⟩ := annotate_preserves m anc b
  unfold anchorOf
  rw [show (annotate m anc b).latitude = b.latitude from congrArg RawAsset.latitude h1,
    show (annotate m anc b).longitude = b.longitude from congrArg RawAsset.longitude h1,
    show dtD (annotate m anc b) = dtD b from by unfold dtD; rw [h2]]

/-- Re-extracting anchors after the annotation pass yields the same
sequence: the pass never mutates the anchor data. -/
theorem extractAnchors_map_annotate (m : String) (anc : List Anchor) (l : List Asset) :
    extractAnchors (l.map (annotate m anc)) = extractAnchors l := by
  unfold extractAnchors
  rw [List.filterMap_map,
    show anchorOf ∘ annotate m anc = anchorOf from funext fun b => anchorOf_annotate m anc b]

/-- Stability of the time sort: the assets holding any fixed parsed
time appear in the sorted sequence in their original relative order. -/
theorem sortValid_stable (l : List Asset) (t : Int) :
    (sortValid l).filter (fun a => decide (a.dt = some t))
      = l.filter (fun a => decide (a.dt = some t)) := by
  have hpair : (l.filter (fun a => decide (a.dt = some t))).Pairwise
      (fun a b => assetLE a b = true) := by
    apply List.pairwise_of_forall_mem_list
    intro a haf b hbf
    have ha := (List.mem_filter.mp haf).2
    have hb := (List.mem_filter.mp hbf).2
    simp only [decide_eq_true_eq] at ha hb
    simp only [assetLE, decide_eq_true_eq]
    unfold dtD
    rw [ha, hb]
  have hsub2 : List.Sublist (l.filter (fun a => decide (a.dt = some t))) (sortValid l) :=
    List.sublist_mergeSort assetLE_trans assetLE_total hpair (List.filter_sublist l)
  have hsub3 : List.Sublist (l.filter (fun a => decide (a.dt = some t)))
      ((sortValid l).filter (fun a => decide (a.dt = some t))) := by
    have h := hsub2.filter (fun a => decide (a.dt = some t))
    rwa [List.filter_eq_self.mpr (fun a haf => (List.mem_filter.mp haf).2)] at h
  have hperm : List.Perm ((sortValid l).filter (fun a => decide (a.dt = some t)))
      (l.filter (fun a => decide (a.dt = some t))) :=
    (List.mergeSort_perm l assetLE).filter _
  exact (hsub3.eq_of_length hperm.length_eq.symm).symm

/-- C7: the anchor sequence has monotonically non-decreasing capture
times; the time sort is stable (assets with equal parsed timestamps
retain their relative input order); and the anchor sequence is fixed
for the batch — re-extracting it after the annotation pass returns the
identical sequence. -/
theorem anchor_sequence_invariants (iso : String → Option Int) (assets : List RawAsset)
    (method : String) (t : Int) :
    ((pipelineAnchors iso assets).map Anchor.time).Pairwise (· ≤ ·) ∧
    (sortValid (validAssets iso assets)).filter (fun a => decide (a.dt = some t))
      = (validAssets iso assets).filter (fun a => decide (a.dt = some t)) ∧
    extractAnchors (apply_interpolation iso assets method) = pipelineAnchors iso assets := by
  refine ⟨pipelineAnchors_sorted iso assets, sortValid_stable _ t, ?_⟩
  unfold apply_interpolation pipelineAnchors
  dsimp only
  by_cases h : extractAnchors (sortValid (validAssets iso assets)) = []
  · rw [if_pos h]
  · rw [if_neg h, extractAnchors_map_annotate]

/-! ## Batch classification: counting invariants -/

/-- `bump` adds exactly one to exactly one of the four counters and
never touches the total. -/
theorem bump_counts (st : Stats) (o : Outcome) :
    (bump st o).updated + (bump st o).alreadyCorrect + (bump st o).skipped + (bump st o).errors
      = st.updated + st.alreadyCorrect + st.skipped + st.errors + 1 ∧
    (bump st o).total = st.total := by
  cases o <;> refine ⟨?_, rfl⟩ <;> simp only [bump] <;> omega

/-- Folding the loop body over a batch adds the batch length to the
counter sum and never touches the total. -/
theorem foldl_stepFn_counts (env : Env) (dryRun : Bool) (assets : List Asset) :
    ∀ st reqs,
      ((assets.foldl (stepFn env dryRun) (st, reqs)).1.updated
          + (assets.foldl (stepFn env dryRun) (st, reqs)).1.alreadyCorrect
          + (assets.foldl (stepFn env dryRun) (st, reqs)).1.skipped
          + (assets.foldl (stepFn env dryRun) (st, reqs)).1.errors
        = st.updated + st.alreadyCorrect + st.skipped + st.errors + assets.length)
      ∧ (assets.foldl (stepFn env dryRun) (st, reqs)).1.total = st.total := by
  induction assets with
  | nil =>
    intro st reqs
    simp
  | cons a l ih =>
    intro st reqs
    rw [List.foldl_cons]
    have hstep : stepFn env dryRun (st, reqs) a
        = (bump st (classify env dryRun a).1,
           if (classify env dryRun a).2 then reqs ++ [a.id] else reqs) := rfl
    rw [hstep]
    obtain ⟨hsum, htot⟩ := ih (bump st (classify env dryRun a).1)
      (if (classify env dryRun a).2 then reqs ++ [a.id] else reqs)
    obtain ⟨hbsum, hbtot⟩ := bump_counts st (classify env dryRun a).1
    refine ⟨?_, by rw [htot, hbtot]⟩
    rw [hsum, hbsum, List.length_cons]
    omega

/-- The trace of contacted asset ids accumulated by the loop: exactly
the ids of the assets whose classification issued a request, in batch
order. -/
theorem foldl_stepFn_reqs (env : Env) (dryRun : Bool) (assets : List Asset) :
    ∀ st reqs,
      (assets.foldl (stepFn env dryRun) (st, reqs)).2
        = reqs ++ (assets.filter fun b => (classify env dryRun b).2).map (fun b => b.id) := by
  induction assets with
  | nil =>
    intro st reqs
    simp
  | cons a l ih =>
    intro st reqs
    rw [List.foldl_cons, List.filter_cons]
    by_cases h : (classify env dryRun a).2
    · rw [if_pos h]
      have hstep : stepFn env dryRun (st, reqs) a
          = (bump st (classify env dryRun a).1, reqs ++ [a.id]) := by
        simp [stepFn, h]
      rw [hstep, ih]
      simp
    · rw [if_neg h]
      have hstep : stepFn env dryRun (st, reqs) a
          = (bump st (classify env dryRun a).1, reqs) := by
        simp [stepFn, h]
      rw [hstep, ih]

/-- C1: over any batch, every asset contributes exactly one of the
four classification counters, so their sum equals the reported total,
which is the length of the asset list passed in. -/
theorem process_updates_partition (env : Env) (assets : List Asset) (fix dryRun : Bool) :
    (process_updates env assets fix dryRun).1.updated
        + (process_updates env assets fix dryRun).1.alreadyCorrect
        + (process_updates env assets fix dryRun).1.skipped
        + (process_updates env assets fix dryRun).1.errors
      = (process_updates env assets fix dryRun).1.total ∧
    (process_updates env assets fix dryRun).1.total = assets.length := by
  obtain ⟨hsum, htot⟩ := foldl_stepFn_counts env dryRun assets (initStats assets.length) []
  unfold process_updates
  refine ⟨?_, ?_⟩
  · rw [hsum, htot]
    simp [initStats]
  · rw [htot]
    rfl

/-! ## The guard cascade and the timezone comparison -/

/-- When the guards pass with resolved zone `tz`, the classification
reduces to the timezone comparison followed by the dry-run / live
dispatch. -/
theorem classify_of_guards (env : Env) (dryRun : Bool) (a : Asset) (tz : String)
    (h : guardsOk env a = some tz) :
    classify env dryRun a =
      (if a.timeZone = some tz then (Outcome.alreadyCorrect, false)
       else if dryRun then (Outcome.updated, false)
       else if env.putOk a.id then (Outcome.updated, true)
       else (Outcome.errors, true)) := by
  unfold guardsOk at h
  unfold classify
  rcases hdt : a.dateTimeOriginal with _ | s
  · simp only [hdt] at h
    exact absurd h (by simp)
  · simp only [hdt] at h ⊢
    by_cases hs : s = ""
    · rw [if_pos hs] at h
      exact absurd h (by simp)
    · rw [if_neg hs] at h ⊢
      rcases hla : effLat a with _ | la
      · simp only [hla] at h ⊢
        exact absurd h (by simp)
      · rcases hln : effLng a with _ | ln
        · simp only [hla, hln] at h ⊢
          exact absurd h (by simp)
        · simp only [hla, hln] at h ⊢
          rcases hres : env.resolve la ln with _ | tz2
          · simp only [hres] at h ⊢
            exact absurd h (by simp)
          · simp only [hres] at h ⊢
            by_cases htz : tz2 = ""
            · rw [if_pos htz] at h
              exact absurd h (by simp)
            · rw [if_neg htz] at h ⊢
              rcases hiso : env.isoparse s with _ | d
              · simp only [hiso] at h ⊢
                exact absurd h (by simp)
              · simp only [hiso] at h ⊢
                by_cases hg : env.gettz tz2 = false
                · rw [if_pos hg] at h
                  exact absurd h (by simp)
                · rw [if_neg hg] at h ⊢
                  obtain rfl : tz2 = tz := Option.some.inj h
                  rfl

/-- When some guard fails, the asset issues no request and is not
classified Already correct (it is Skipped or Errors). -/
theorem classify_of_guards_none (env : Env) (dryRun : Bool) (a : Asset)
    (h : guardsOk env a = none) :
    (classify env dryRun a).2 = false ∧ (classify env dryRun a).1 ≠ Outcome.alreadyCorrect := by
  unfold guardsOk at h
  unfold classify
  rcases hdt : a.dateTimeOriginal with _ | s
  · simp [hdt]
  · simp only [hdt] at h
    by_cases hs : s = ""
    · simp [hdt, hs]
    · rw [if_neg hs] at h
      rcases hla : effLat a with _ | la
      · simp [hdt, hs, hla]
      · rcases hln : effLng a with _ | ln
        · simp [hdt, hs, hla, hln]
        · simp only [hla, hln] at h
          rcases hres : env.resolve la ln with _ | tz2
          · simp [hdt, hs, hla, hln, hres]
          · simp only [hres] at h
            by_cases htz : tz2 = ""
            · simp [hdt, hs, hla, hln, hres, htz]
            · rw [if_neg htz] at h
              rcases hiso : env.isoparse s with _ | d
              · simp [hdt, hs, hla, hln, hres, htz, hiso]
              · simp only [hiso] at h
                by_cases hg : env.gettz tz2 = false
                · simp [hdt, hs, hla, hln, hres, htz, hiso, hg]
                · rw [if_neg hg] at h
                  exact absurd h (by simp)

/-- Expansion of a passing guard cascade into its individual checks. -/
theorem guardsOk_some_expand (env : Env) (a : Asset) (tz : String)
    (h : guardsOk env a = some tz) :
    ∃ s la ln, a.dateTimeOriginal = some s ∧ s ≠ "" ∧ effLat a = some la ∧
      effLng a = some ln ∧ env.resolve la ln = some tz ∧ tz ≠ "" ∧
      (env.isoparse s).isSome = true ∧ env.gettz tz = true := by
  unfold guardsOk at h
  rcases hdt : a.dateTimeOriginal with _ | s
  · simp only [hdt] at h
    exact absurd h (by simp)
  · simp only [hdt] at h
    by_cases hs : s = ""
    · rw [if_pos hs] at h
      exact absurd h (by simp)
    · rw [if_neg hs] at h
      rcases hla : effLat a with _ | la
      · simp only [hla] at h
        exact absurd h (by simp)
      · rcases hln : effLng a with _ | ln
        · simp only [hla, hln] at h
          exact absurd h (by simp)
        · simp only [hla, hln] at h
          rcases hres : env.resolve la ln with _ | tz2
          · simp only [hres] at h
            exact absurd h (by simp)
          · simp only [hres] at h
            by_cases htz : tz2 = ""
            · rw [if_pos htz] at h
              exact absurd h (by simp)
            · rw [if_neg htz] at h
              rcases hiso : env.isoparse s with _ | d
              · simp only [hiso] at h
                exact absurd h (by simp)
              · simp only [hiso] at h
                by_cases hg : env.gettz tz2 = false
                · rw [if_pos hg] at h
                  exact absurd h (by simp)
                · rw [if_neg hg] at h
                  obtain rfl : tz2 = tz := Option.some.inj h
                  refine ⟨s, la, ln, ?_, hs, ?_, ?_, ?_, htz, ?_, ?_⟩ <;>
                    first
                      | rfl
                      | exact hres
                      | (rw [hiso]; rfl)
                      | simpa using hg

/-- The converse: the individual checks assemble into a passing guard
cascade. -/
theorem guardsOk_of_checks (env : Env) (a : Asset) (s : String) (la ln : Int) (tz : String)
    (hdt : a.dateTimeOriginal = some s) (hs : s ≠ "") (hla : effLat a = some la)
    (hln : effLng a = some ln) (hres : env.resolve la ln = some tz) (htz : tz ≠ "")
    (hiso : (env.isoparse s).isSome = true) (hg : env.gettz tz = true) :
    guardsOk env a = some tz := by
  unfold guardsOk
  rcases hisov : env.isoparse s with _ | d
  · rw [hisov] at hiso
    simp at hiso
  · simp only [hdt, if_neg hs, hla, hln, hres, if_neg htz, hisov]
    rw [if_neg (by simp [hg])]

/-- A pending mutation (live-mode classification issues a request)
means the guards passed and the stored zone differs from the resolved
one. -/
theorem pending_guards (env : Env) (a : Asset) (hpend : (classify env false a).2 = true) :
    ∃ tz, guardsOk env a = some tz ∧ a.timeZone ≠ some tz := by
  rcases hg : guardsOk env a with _ | tz
  · exact absurd hpend (by simp [(classify_of_guards_none env false a hg).1])
  · refine ⟨tz, rfl, ?_⟩
    intro hne
    rw [classify_of_guards env false a tz hg, if_pos hne] at hpend
    simp at hpend

/-- C5: an asset is classified Already correct exactly when it passes
every guard and its stored timezone identifier is string-equal to the
resolved target identifier.  The decision consults nothing but this
string identity — the model carries no notion of UTC offsets, so two
different identifiers are classified for mutation regardless of any
offset they may share. -/
theorem already_correct_iff (env : Env) (dryRun : Bool) (a : Asset) :
    (classify env dryRun a).1 = Outcome.alreadyCorrect ↔
      ∃ s la ln tz, a.dateTimeOriginal = some s ∧ s ≠ "" ∧ effLat a = some la ∧
        effLng a = some ln ∧ env.resolve la ln = some tz ∧ tz ≠ "" ∧
        (env.isoparse s).isSome = true ∧ env.gettz tz = true ∧ a.timeZone = some tz := by
  constructor
  · intro hac
    rcases hg : guardsOk env a with _ | tz
    · exact absurd hac (classify_of_guards_none env dryRun a hg).2
    · by_cases htzeq : a.timeZone = some tz
      · obtain ⟨s, la, ln, h1, h2, h3, h4, h5, h6, h7, h8⟩ := guardsOk_some_expand env a tz hg
        exact ⟨s, la, ln, tz, h1, h2, h3, h4, h5, h6, h7, h8, htzeq⟩
      · rw [classify_of_guards env dryRun a tz hg, if_neg htzeq] at hac
        by_cases hd : dryRun
        · rw [if_pos hd] at hac
          exact absurd hac (by decide)
        · rw [if_neg hd] at hac
          by_cases hp : env.putOk a.id
          · rw [if_pos hp] at hac
            exact absurd hac (by decide)
          · rw [if_neg hp] at hac
            exact absurd hac (by decide)
  · rintro ⟨s, la, ln, tz, hdt2, hs, hla, hln, hres, htz, hiso, hgz, htzeq⟩
    rw [classify_of_guards env dryRun a tz
      (guardsOk_of_checks env a s la ln tz hdt2 hs hla hln hres htz hiso hgz), if_pos htzeq]

/-! ## Dry-run and live dispatch -/

/-- In dry-run mode no classification ever issues a request. -/
theorem classify_dry_snd (env : Env) (a : Asset) : (classify env true a).2 = false := by
  rcases hg : guardsOk env a with _ | tz
  · exact (classify_of_guards_none env true a hg).1
  · rw [classify_of_guards env true a tz hg]
    by_cases htzeq : a.timeZone = some tz
    · rw [if_pos htzeq]
    · rw [if_neg htzeq, if_pos rfl]

/-- In dry-run mode the classification never consults the mutation
endpoint: it is unchanged under any replacement of `putOk`. -/
theorem classify_dry_putOk_free (iso : String → Option Int) (res : Int → Int → Option String)
    (gtz : String → Bool) (p p2 : Nat → Bool) (a : Asset) :
    classify ⟨iso, res, gtz, p⟩ true a = classify ⟨iso, res, gtz, p2⟩ true a := rfl

/-- In dry-run mode the request trace of the whole batch is empty. -/
theorem dry_reqs_nil (env : Env) (assets : List Asset) (fix : Bool) :
    (process_updates env assets fix true).2 = [] := by
  unfold process_updates
  rw [foldl_stepFn_reqs]
  simp [classify_dry_snd]

/-- C8: in dry-run mode the catalog's mutation endpoint is never
contacted (the request trace is empty), every pending mutation is
recorded as Updated, and the run is insensitive to the state of the
mutation endpoint — so re-running the unchanged batch in dry-run mode
yields identical classification counts. -/
theorem dry_run_never_mutates (iso : String → Option Int) (res : Int → Int → Option String)
    (gtz : String → Bool) (put put2 : Nat → Bool) (assets : List Asset) (fix : Bool)
    (a : Asset) (hpend : (classify ⟨iso, res, gtz, put⟩ false a).2 = true) :
    (process_updates ⟨iso, res, gtz, put⟩ assets fix true).2 = [] ∧
    (classify ⟨iso, res, gtz, put⟩ true a).1 = Outcome.updated ∧
    process_updates ⟨iso, res, gtz, put⟩ assets fix true
      = process_updates ⟨iso, res, gtz, put2⟩ assets fix true := by
  refine ⟨dry_reqs_nil _ assets fix, ?_, ?_⟩
  · obtain ⟨tz, hg, hne⟩ := pending_guards _ a hpend
    rw [classify_of_guards _ true a tz hg, if_neg hne, if_pos rfl]
  · have hstep : stepFn ⟨iso, res, gtz, put⟩ true = stepFn ⟨iso, res, gtz, put2⟩ true := by
      funext acc b
      unfold stepFn
      rw [classify_dry_putOk_free iso res gtz put put2 b]
    unfold process_updates
    rw [hstep]

/-- C9: in live mode the request trace lists exactly the pending
assets, in batch order and each exactly once — a failing call is
neither retried nor does it stop the remaining assets from being
processed; a pending asset is classified Updated when its call
succeeds and Errors when it fails; and the four counters still
partition the whole batch. -/
theorem live_failures_isolated (env : Env) (assets : List Asset) (fix : Bool) (a : Asset)
    (hpend : (classify env false a).2 = true) :
    (process_updates env assets fix false).2
      = (assets.filter fun b => (classify env false b).2).map (fun b => b.id) ∧
    (classify env false a).1
      = (if env.putOk a.id then Outcome.updated else Outcome.errors) ∧
    (process_updates env assets fix false).1.updated
        + (process_updates env assets fix false).1.alreadyCorrect
        + (process_updates env assets fix false).1.skipped
        + (process_updates env assets fix false).1.errors
      = assets.length := by
  refine ⟨?_, ?_, ?_⟩
  · unfold process_updates
    rw [foldl_stepFn_reqs]
    simp
  · obtain ⟨tz, hg, hne⟩ := pending_guards env a hpend
    rw [classify_of_guards env false a tz hg, if_neg hne, if_neg (by simp)]
    by_cases hp : env.putOk a.id
    · rw [if_pos hp, if_pos hp]
    · rw [if_neg hp, if_neg hp]
  · obtain ⟨hsum, htot⟩ := foldl_stepFn_counts env false assets (initStats assets.length) []
    unfold process_updates
    rw [hsum]
    simp [initStats]

/-- C10: when `fix` and `dry_run` are both set, dry-run wins:
`process_updates` never reads `fix`, so the run is identical to the
pure dry-run one — no mutation request is sent and every pending
mutation is counted as Updated. -/
theorem fix_and_dry_run (env : Env) (assets : List Asset) :
    process_updates env assets true true = process_updates env assets false true ∧
    (process_updates env assets true true).2 = [] :=
  ⟨rfl, dry_reqs_nil env assets true⟩

/-! ## Fate of unparseable timestamps -/

/-- C2 (amended): the Interpolation Engine drops every asset whose
capture timestamp is missing, empty or unparseable — such assets do
not appear in its output at all, so when interpolation is applied they
are neither classified nor counted: the reported total equals the
length of the retained list only.  (Only when a timestamp-less asset
reaches `process_updates` directly, without interpolation, is it
classified Skipped.) -/
theorem unparseable_dropped (iso : String → Option Int) (assets : List RawAsset)
    (method : String) (env : Env) (fix dryRun : Bool) (a : Asset) (r : RawAsset)
    (ha : a ∈ apply_interpolation iso assets method) (hr : r.dateTimeOriginal = none) :
    (a.dateTimeOriginal.bind iso).isSome = true ∧ a.dateTimeOriginal ≠ some "" ∧
    (process_updates env (apply_interpolation iso assets method) fix dryRun).1.total
      = (apply_interpolation iso assets method).length ∧
    classify env dryRun r.toAsset = (Outcome.skipped, false) := by
  obtain ⟨b, hb, hcase⟩ := mem_apply_interpolation ha
  obtain ⟨r2, _, s, d, hdt2, hs, hiso2, hbe⟩ := mem_validAssets.mp (mem_sortValid hb)
  have hadt : a.dateTimeOriginal = b.dateTimeOriginal := by
    rcases hcase with hann | ⟨_, rfl⟩
    · rw [hann]
      exact congrArg RawAsset.dateTimeOriginal (annotate_preserves _ _ _).1
    · rfl
  have hbdt : b.dateTimeOriginal = some s := by
    rw [hbe]
    exact hdt2
  refine ⟨?_, ?_, ?_, ?_⟩
  · rw [hadt, hbdt]
    simp [hiso2]
  · rw [hadt, hbdt]
    simp [hs]
  · obtain ⟨_, htot⟩ := foldl_stepFn_counts env dryRun (apply_interpolation iso assets method)
      (initStats (apply_interpolation iso assets method).length) []
    unfold process_updates
    rw [htot]
    rfl
  · have hrt : (r.toAsset).dateTimeOriginal = none := hr
    unfold classify
    simp only [hrt]

/-- C2 counterexample: a batch holding only an asset with an
unparseable timestamp.  Interpolation drops the asset entirely — the
returned batch is empty, so the final total is 0 and Skipped is 0:
the asset is neither classified Skipped nor counted in the total. -/
theorem unparseable_dropped_cx :
    apply_interpolation isoTest [rawBad] "NN" = [] ∧
    (process_updates envTest (apply_interpolation isoTest [rawBad] "NN") false true).1.total
      = 0 ∧
    (process_updates envTest (apply_interpolation isoTest [rawBad] "NN") false true).1.skipped
      = 0 := by
  have hval : validAssets isoTest [rawBad] = [] := by decide
  have happ : apply_interpolation isoTest [rawBad] "NN" = [] := by
    unfold apply_interpolation
    rw [hval, show sortValid ([] : List Asset) = [] from List.mergeSort_nil]
    rfl
  rw [happ]
  exact ⟨rfl, rfl, rfl⟩

/-! ## Concrete evaluations of the pipeline on the test batch -/

theorem validAssets_rawsTest : validAssets isoTest rawsTest = [a1V, midV, a2V] := by
  decide

theorem sortValid_valid_rawsTest : sortValid [a1V, midV, a2V] = [a1V, midV, a2V] :=
  List.mergeSort_of_sorted (by decide)

theorem appNN_rawsTest : apply_interpolation isoTest rawsTest "NN" = [a1V, aMidNN, a2V] := by
  unfold apply_interpolation
  rw [validAssets_rawsTest, sortValid_valid_rawsTest]
  decide

theorem appFF_rawsTest : apply_interpolation isoTest rawsTest "FF" = [a1V, aMidFF, a2V] := by
  unfold apply_interpolation
  rw [validAssets_rawsTest, sortValid_valid_rawsTest]
  decide

/-! ## Witnesses: the theorems above applied to the concrete batch -/

/-- Witness for C2 (amended), at the concrete test batch. -/
theorem unparseable_dropped_witness :
    (a1V ∈ apply_interpolation isoTest rawsTest "NN") ∧ rawNoTs.dateTimeOriginal = none ∧
    ((a1V.dateTimeOriginal.bind isoTest).isSome = true ∧ a1V.dateTimeOriginal ≠ some "" ∧
      (process_updates envTest (apply_interpolation isoTest rawsTest "NN") false true).1.total
        = (apply_interpolation isoTest rawsTest "NN").length ∧
      classify envTest true rawNoTs.toAsset = (Outcome.skipped, false)) := by
  have hmem : a1V ∈ apply_interpolation isoTest rawsTest "NN" := by
    rw [appNN_rawsTest]
    decide
  exact ⟨hmem, rfl,
    unparseable_dropped isoTest rawsTest "NN" envTest false true a1V rawNoTs hmem rfl⟩

/-- Witness for C3: the coordinate-less asset at time 200 sits exactly
between the anchors at 100 and 300; the tie resolves to the
predecessor, as recorded in `aMidNN`. -/
theorem nn_conforms_witness :
    (aMidNN ∈ apply_interpolation isoTest rawsTest "NN") ∧ aMidNN.latitude = none ∧
    (aMidNN.interpolated
        = (nnSpecChoice (pipelineAnchors isoTest rawsTest) (dtD aMidNN)).isSome ∧
      aMidNN.newLat = (nnSpecChoice (pipelineAnchors isoTest rawsTest) (dtD aMidNN)).map Anchor.lat ∧
      aMidNN.newLng = (nnSpecChoice (pipelineAnchors isoTest rawsTest) (dtD aMidNN)).map Anchor.lng ∧
      aMidNN.methodTag = (if (nnSpecChoice (pipelineAnchors isoTest rawsTest) (dtD aMidNN)).isSome
        then some "NN" else none)) := by
  have hmem : aMidNN ∈ apply_interpolation isoTest rawsTest "NN" := by
    rw [appNN_rawsTest]
    decide
  exact ⟨hmem, rfl, nn_conforms isoTest rawsTest aMidNN hmem rfl⟩

/-- Witness for C4, at the concrete test batch. -/
theorem ff_conforms_witness :
    (aMidFF ∈ apply_interpolation isoTest rawsTest "FF") ∧ aMidFF.latitude = none ∧
    (aMidFF.interpolated
        = (ffSpecChoice (pipelineAnchors isoTest rawsTest) (dtD aMidFF)).isSome ∧
      aMidFF.newLat = (ffSpecChoice (pipelineAnchors isoTest rawsTest) (dtD aMidFF)).map Anchor.lat ∧
      aMidFF.newLng = (ffSpecChoice (pipelineAnchors isoTest rawsTest) (dtD aMidFF)).map Anchor.lng ∧
      aMidFF.methodTag = (if (ffSpecChoice (pipelineAnchors isoTest rawsTest) (dtD aMidFF)).isSome
        then some "FF" else none) ∧
      (ffSpecChoice (pipelineAnchors isoTest rawsTest) (dtD aMidFF) = none ↔
        specLeftmostGE (pipelineAnchors isoTest rawsTest) (dtD aMidFF) = 0) ∧
      (ffSpecChoice (pipelineAnchors isoTest rawsTest) (dtD aMidFF)).elim
        (((pipelineAnchors isoTest rawsTest).all fun c => decide (¬ c.time < dtD aMidFF)) = true)
        (fun c => c.time < dtD aMidFF ∧
          ((pipelineAnchors isoTest rawsTest).all fun b =>
            decide (b.time < dtD aMidFF → b.time ≤ c.time)) = true)) := by
  have hmem : aMidFF ∈ apply_interpolation isoTest rawsTest "FF" := by
    rw [appFF_rawsTest]
    decide
  exact ⟨hmem, rfl, ff_conforms isoTest rawsTest aMidFF hmem rfl⟩

/-- Witness for C6: the anchor-bearing asset passes through `NN`
interpolation untouched. -/
theorem native_coords_untouched_witness :
    (a1V ∈ apply_interpolation isoTest rawsTest "NN") ∧ a1V.latitude.isSome = true ∧
    a1V.longitude.isSome = true ∧
    (a1V.interpolated = false ∧ a1V.newLat = none ∧ a1V.newLng = none ∧
      a1V.methodTag = none) := by
  have hmem : a1V ∈ apply_interpolation isoTest rawsTest "NN" := by
    rw [appNN_rawsTest]
    decide
  exact ⟨hmem, rfl, rfl, native_coords_untouched isoTest rawsTest "NN" a1V hmem rfl rfl⟩

/-- Witness for C8: a concrete pending asset, dry-run. -/
theorem dry_run_never_mutates_witness :
    (classify envTest false aPend).2 = true ∧
    ((process_updates envTest [aPend] false true).2 = [] ∧
      (classify envTest true aPend).1 = Outcome.updated ∧
      process_updates envTest [aPend] false true
        = process_updates envFail [aPend] false true) :=
  ⟨rfl, dry_run_never_mutates isoTest resTest gtzTest putAlways putNever [aPend] false aPend rfl⟩

/-- Witness for C9: the same pending asset in live mode against the
failing endpoint. -/
theorem live_failures_isolated_witness :
    (classify envFail false aPend).2 = true ∧
    ((process_updates envFail [aPend] false false).2
        = (([aPend].filter fun b => (classify envFail false b).2).map (fun b => b.id)) ∧
      (classify envFail false aPend).1
        = (if envFail.putOk aPend.id then Outcome.updated else Outcome.errors) ∧
      (process_updates envFail [aPend] false false).1.updated
          + (process_updates envFail [aPend] false false).1.alreadyCorrect
          + (process_updates envFail [aPend] false false).1.skipped
          + (process_updates envFail [aPend] false false).1.errors
        = [aPend].length) :=
  ⟨rfl, live_failures_isolated envFail [aPend] false aPend rfl⟩

end ImmichTzFixer
